import Mathlib

/-!
Shallow embedding of the `cstorage` Go package (src/cstorage.go): a bounded
key-value cache with LRU eviction and per-entry TTL expiry.

Modelling conventions, chosen to mirror the Go source:
* The Go `map[string]*node` is modelled as an association list
  `table : List (String × Node)`; Go map semantics (at most one binding per
  key) are recovered through the reachability invariant `WF`.
* The doubly linked recency list (`head`/`tail` pointers with `prev`/`next`
  links) is modelled as `order : List String`, head first, tail last.  The
  pointer surgery of `setHead` (detach a node, splice it before the head)
  becomes "erase the key, cons it in front"; the pointer surgery of `evict`
  becomes "erase the key".  `head == nil` corresponds to `order = []` and
  `s.tail` corresponds to `order.getLast?`.
* `int64` fields (`size`, `Capacity`) are modelled as `Int`; `time.Time`
  and `time.Duration` are modelled as `Int` instants/durations, with
  `t1.Before t2` becoming `t1 < t2`.  `[]byte` is `List Nat`.
* A Go nil-pointer dereference (a panic) is modelled as `none`: `evict` is
  called with `s.tail`, which is nil exactly when the list is empty, and
  every branch of the Go `evict` dereferences its argument.
* The mutex is erased from the sequential state; which public operation
  acquires it is recorded separately in `holdsLockForWholeBody`.
-/

namespace Cstorage

/-- The Go `node` struct: `key` is the association key, `prev`/`next` are
subsumed by the position in `order`. -/
structure Node where
  data : List Nat
  ttl : Int
  deriving DecidableEq, Repr

/-- The Go `CStorageConfig` struct (`Ttl time.Duration`, `Capacity int64`). -/
structure CStorageConfig where
  Ttl : Int
  Capacity : Int
  deriving DecidableEq, Repr

/-- The Go `CStorage` struct: hash table, recency list (head first), tracked
size, configuration.  The mutex is erased. -/
structure CStorage where
  table : List (String × Node)
  order : List String
  size : Int
  config : CStorageConfig
  deriving DecidableEq, Repr

/-- Go map read `s.table[key]`. -/
def tableGet (t : List (String × Node)) (k : String) : Option Node :=
  match t with
  | [] => none
  | p :: rest => if p.1 = k then some p.2 else tableGet rest k

/-- Go map removal `delete(s.table, key)`: a Go map holds at most one binding
per key, so removal deletes every binding of `k` in the association list. -/
def tableDelete (t : List (String × Node)) (k : String) : List (String × Node) :=
  match t with
  | [] => []
  | p :: rest => if p.1 = k then tableDelete rest k else p :: tableDelete rest k

/-- Go map write `s.table[key] = n` on a key already present (in the source
this is the in-place mutation of the shared node's `data` and `ttl` fields). -/
def tableReplace (t : List (String × Node)) (k : String) (n : Node) :
    List (String × Node) :=
  match t with
  | [] => []
  | p :: rest => if p.1 = k then (k, n) :: rest else p :: tableReplace rest k n

/-- The keys of the table, in association-list order. -/
def keys (t : List (String × Node)) : List String :=
  t.map Prod.fst

/-- The Go `New` function: no validation of the config whatsoever. -/
def New (config : CStorageConfig) : CStorage :=
  { table := [], order := [], size := 0, config := config }

/-- The Go `setHead` method on a key known by name.  All three Go cases
(`n` already head: no-op; `n` is tail: unlink from the back and splice in
front; general: unlink and splice in front; plus the fresh node, whose
`prev`/`next` are nil so the unlink guards skip) collapse, at the level of
the key sequence, to "remove the key if present, cons it in front". -/
def setHead (s : CStorage) (k : String) : CStorage :=
  { s with order := k :: s.order.erase k }

/-- The Go `evict` method applied to the node with key `k`: remove the node
from the linked list and delete its key from the map.  `evict` does not
touch `size`; the callers decrement it. -/
def evictNode (s : CStorage) (k : String) : CStorage :=
  { s with order := s.order.erase k, table := tableDelete s.table k }

/-- The Go `Get` method.  Note that the live branch returns the data
without calling `setHead`: the source's hit path performs no recency
update (src/cstorage.go lines 60-76). -/
def Get (s : CStorage) (k : String) (now : Int) :
    Option (List Nat) × Bool × CStorage :=
  match tableGet s.table k with
  | none => (none, false, s)
  | some n =>
    if n.ttl < now then
      (none, false, { evictNode s k with size := s.size - 1 })
    else
      (some n.data, true, s)

/-- One fuel-indexed unfolding of the Go loop
`for s.size >= s.config.Capacity { s.evict(s.tail); s.size-- }`.
`none` models the nil-pointer panic: when the list is empty `s.tail` is nil
and every branch of the Go `evict` dereferences it.  Each iteration removes
the tail from `order`, so fuel `s.order.length + 1` can never be exhausted;
the fuel only drives the structural recursion. -/
def evictFuel : Nat → CStorage → Option CStorage
  | 0, _ => none
  | fuel + 1, s =>
    if s.size < s.config.Capacity then some s
    else
      match s.order.getLast? with
      | none => none
      | some k => evictFuel fuel { evictNode s k with size := s.size - 1 }

/-- The capacity-eviction loop of `Put`. -/
def evictLoop (s : CStorage) : Option CStorage :=
  evictFuel (s.order.length + 1) s

/-- The Go `Put` method: update path (overwrite data, renew ttl, move to
head, `hit=true`, no expiry check and no capacity recheck) or insert path
(evict the tail while `size ≥ Capacity`, then cons the new node, move it to
head, increment size, `hit=false`).  `none` models the panic of the
eviction loop on an empty list. -/
def Put (s : CStorage) (k : String) (d : List Nat) (now : Int) :
    Option (Bool × CStorage) :=
  let ttl := now + s.config.Ttl
  match tableGet s.table k with
  | some _ =>
    some (true, setHead { s with table := tableReplace s.table k ⟨d, ttl⟩ } k)
  | none =>
    match evictLoop s with
    | none => none
    | some s1 =>
      some (false,
        { setHead { s1 with table := (k, ⟨d, ttl⟩) :: s1.table } k with
            size := s1.size + 1 })

/-- The Go `Delete` method: no TTL check; evict the node and decrement
size when the key is present. -/
def Delete (s : CStorage) (k : String) : Bool × CStorage :=
  match tableGet s.table k with
  | none => (false, s)
  | some _ => (true, { evictNode s k with size := s.size - 1 })

/-- Fuel-indexed unfolding of the Go loop
`for s.head != nil { s.evict(s.tail) }` of `Clear`.  `head == nil` is
`order = []`, and then `s.tail` is `order.getLast?`.  Each iteration
shortens `order`, so fuel `s.order.length + 1` is never exhausted. -/
def clearFuel : Nat → CStorage → CStorage
  | 0, s => s
  | fuel + 1, s =>
    match s.order.getLast? with
    | none => s
    | some k => clearFuel fuel (evictNode s k)

/-- The Go `Clear` method: evict everything, then reset `size` to 0. -/
def Clear (s : CStorage) : CStorage :=
  { clearFuel (s.order.length + 1) s with size := 0 }

/-- The Go `Size` method: returns the tracked `size` field, nothing more. -/
def Size (s : CStorage) : Int :=
  s.size

/-- The Go `Cap` method. -/
def Cap (s : CStorage) : Int :=
  s.config.Capacity

/-- The range loop of the Go `RemoveExpired`: iterate over the map's
entries (snapshotted here as the association list; deletions only ever
remove the entry currently being visited, so ranging over the snapshot is
faithful to Go's range-with-delete semantics), delete the strictly expired
ones via the public `Delete`, and count them. -/
def removeExpiredGo (es : List (String × Node)) (now : Int) (s : CStorage) :
    CStorage × Int :=
  match es with
  | [] => (s, 0)
  | (k, n) :: rest =>
    if n.ttl < now then
      let s1 := (Delete s k).2
      let r := removeExpiredGo rest now s1
      (r.1, r.2 + 1)
    else
      removeExpiredGo rest now s

/-- The Go `RemoveExpired` method. -/
def RemoveExpired (s : CStorage) (now : Int) : CStorage × Int :=
  removeExpiredGo s.table now s

/-- The public operations of the package. -/
inductive PublicOp
  | get
  | put
  | del
  | clear
  | size
  | cap
  | removeExpired
  deriving DecidableEq, Repr

/-- Recorded from the source: whether the method's body acquires `s.mutex`
at entry and holds it (via `defer s.mutex.Unlock()`) for the whole
operation.  `Get`, `Put`, `Delete` and `Clear` do (lines 61-62, 87-88,
120-121, 136-137); `Size` (147), `Cap` (152) and `RemoveExpired` (159) have
no lock acquisition of their own — `RemoveExpired` only locks inside each
nested `Delete` call. -/
def holdsLockForWholeBody : PublicOp → Bool
  | .get => true
  | .put => true
  | .del => true
  | .clear => true
  | .size => false
  | .cap => false
  | .removeExpired => false

/-- A single public mutating operation, for reachability statements. -/
inductive Op
  | get (k : String) (now : Int)
  | put (k : String) (d : List Nat) (now : Int)
  | del (k : String)
  | clear
  | removeExpired (now : Int)
  deriving DecidableEq, Repr

/-- Apply one operation to the state; `none` propagates a `Put` panic. -/
def step (s : CStorage) : Op → Option CStorage
  | .get k now => some (Get s k now).2.2
  | .put k d now => (Put s k d now).map Prod.snd
  | .del k => some (Delete s k).2
  | .clear => some (Clear s)
  | .removeExpired now => some (RemoveExpired s now).1

/-- Run a list of operations from a given state. -/
def runFrom (s : CStorage) : List Op → Option CStorage
  | [] => some s
  | op :: ops =>
    match step s op with
    | none => none
    | some s1 => runFrom s1 ops

/-- Run a list of operations on a freshly constructed engine. -/
def run (cfg : CStorageConfig) (ops : List Op) : Option CStorage :=
  runFrom (New cfg) ops

/-- A sequence of `Put` calls (key, data, time), propagating panics. -/
def putSeq (s : CStorage) : List (String × List Nat × Int) → Option CStorage
  | [] => some s
  | e :: es =>
    match Put s e.1 e.2.1 e.2.2 with
    | none => none
    | some r => putSeq r.2 es

/-- The structural invariant tying the three data structures together:
the table's keys are the recency list up to order, the recency list has no
duplicates, the tracked `size` is the number of nodes, and `size` is within
the configured capacity. -/
def WF (s : CStorage) : Prop :=
  (keys s.table).Perm s.order ∧ s.order.Nodup ∧
    s.size = (s.order.length : Int) ∧ s.size ≤ s.config.Capacity

instance (s : CStorage) : Decidable (WF s) := by
  unfold WF
  infer_instance

theorem mem_of_getLast_some {l : List String} {k : String}
    (h : l.getLast? = some k) : k ∈ l := by
  have hne : l ≠ [] := by
    intro hnil
    rw [hnil] at h
    simp at h
  have h2 := List.getLast?_eq_getLast l hne
  rw [h] at h2
  have h3 : k = l.getLast hne := by
    injection h2
  rw [h3]
  exact List.getLast_mem hne

theorem keys_nil : keys [] = [] := rfl

theorem keys_cons {p : String × Node} {rest : List (String × Node)} :
    keys (p :: rest) = p.1 :: keys rest := rfl

theorem tableGet_eq_none_iff {t : List (String × Node)} {k : String} :
    tableGet t k = none ↔ k ∉ keys t := by
  induction t with
  | nil => simp [tableGet, keys_nil]
  | cons p rest ih =>
    by_cases h : p.1 = k
    · simp [tableGet, keys_cons, h]
    · simp only [tableGet, if_neg h, keys_cons, List.mem_cons, not_or]
      rw [ih]
      have : ¬ k = p.1 := fun hh => h hh.symm
      tauto

theorem tableGet_isSome_iff {t : List (String × Node)} {k : String} :
    (tableGet t k).isSome = true ↔ k ∈ keys t := by
  rcases h : tableGet t k with _ | n
  · simpa using tableGet_eq_none_iff.mp h
  · simp only [Option.isSome_some, true_iff]
    by_contra hk
    rw [tableGet_eq_none_iff.mpr hk] at h
    cases h

theorem tableDelete_of_not_mem {t : List (String × Node)} {k : String}
    (h : k ∉ keys t) : tableDelete t k = t := by
  induction t with
  | nil => rfl
  | cons p rest ih =>
    simp only [keys_cons, List.mem_cons, not_or] at h
    have h1 : ¬ p.1 = k := fun hh => h.1 hh.symm
    simp only [tableDelete, if_neg h1]
    rw [ih h.2]

theorem tableGet_tableDelete_self {t : List (String × Node)} {k : String} :
    tableGet (tableDelete t k) k = none := by
  induction t with
  | nil => rfl
  | cons p rest ih =>
    by_cases h : p.1 = k
    · simpa [tableDelete, if_pos h] using ih
    · simp only [tableDelete, if_neg h, tableGet]
      exact ih

theorem tableGet_tableDelete_ne {t : List (String × Node)} {k k' : String}
    (h : k' ≠ k) : tableGet (tableDelete t k) k' = tableGet t k' := by
  induction t with
  | nil => rfl
  | cons p rest ih =>
    by_cases hp : p.1 = k
    · have h1 : ¬ p.1 = k' := fun hh => h (hh.symm.trans hp)
      simp only [tableDelete, if_pos hp, tableGet, if_neg h1]
      exact ih
    · by_cases hp' : p.1 = k'
      · simp only [tableDelete, if_neg hp, tableGet, if_pos hp']
      · simp only [tableDelete, if_neg hp, tableGet, if_neg hp']
        exact ih

theorem keys_tableDelete {t : List (String × Node)} {k : String}
    (h : (keys t).Nodup) : keys (tableDelete t k) = (keys t).erase k := by
  induction t with
  | nil => rfl
  | cons p rest ih =>
    rw [keys_cons] at h
    rcases List.nodup_cons.mp h with ⟨h1, h2⟩
    by_cases hp : p.1 = k
    · have hnot : k ∉ keys rest := hp ▸ h1
      simp only [tableDelete, if_pos hp]
      rw [tableDelete_of_not_mem hnot, keys_cons, hp, List.erase_cons_head]
    · simp only [tableDelete, if_neg hp, keys_cons]
      rw [ih h2, List.erase_cons_tail]
      simp [hp]

theorem keys_tableReplace {t : List (String × Node)} {k : String} {n : Node} :
    keys (tableReplace t k n) = keys t := by
  induction t with
  | nil => rfl
  | cons p rest ih =>
    by_cases hp : p.1 = k
    · simp only [tableReplace, if_pos hp, keys_cons]
      rw [hp]
    · simp only [tableReplace, if_neg hp, keys_cons]
      rw [ih]

theorem tableGet_tableReplace_self {t : List (String × Node)} {k : String} {n m : Node}
    (h : tableGet t k = some m) : tableGet (tableReplace t k n) k = some n := by
  induction t with
  | nil => cases h
  | cons p rest ih =>
    by_cases hp : p.1 = k
    · simp [tableReplace, if_pos hp, tableGet]
    · simp only [tableGet, if_neg hp] at h
      simp only [tableReplace, if_neg hp, tableGet, if_neg hp]
      exact ih h

theorem tableGet_tableReplace_ne {t : List (String × Node)} {k k' : String} {n : Node}
    (h : k' ≠ k) : tableGet (tableReplace t k n) k' = tableGet t k' := by
  induction t with
  | nil => rfl
  | cons p rest ih =>
    by_cases hp : p.1 = k
    · have h1 : ¬ k = k' := fun hh => h hh.symm
      have h2 : ¬ p.1 = k' := fun hh => h (hh.symm.trans hp)
      simp only [tableReplace, if_pos hp, tableGet, if_neg h1, if_neg h2]
    · by_cases hp' : p.1 = k'
      · simp only [tableReplace, if_neg hp, tableGet, if_pos hp']
      · simp only [tableReplace, if_neg hp, tableGet, if_neg hp']
        exact ih

theorem tableGet_mem_keys {t : List (String × Node)} {k : String} {n : Node}
    (h : tableGet t k = some n) : k ∈ keys t := by
  by_contra hk
  rw [tableGet_eq_none_iff.mpr hk] at h
  cases h

theorem tableGet_self_of_nodup {t : List (String × Node)} {p : String × Node}
    (h : (keys t).Nodup) (hp : p ∈ t) : tableGet t p.1 = some p.2 := by
  induction t with
  | nil => cases hp
  | cons q rest ih =>
    rw [keys_cons] at h
    rcases List.nodup_cons.mp h with ⟨h1, h2⟩
    rcases List.mem_cons.mp hp with rfl | hmem
    · simp [tableGet]
    · have hne : ¬ q.1 = p.1 := by
        intro hh
        exact h1 (hh ▸ List.mem_map_of_mem Prod.fst hmem)
      simp only [tableGet, if_neg hne]
      exact ih h2 hmem

theorem WF.perm {s : CStorage} (h : WF s) : (keys s.table).Perm s.order :=
  h.1

theorem WF.nodup {s : CStorage} (h : WF s) : s.order.Nodup :=
  h.2.1

theorem WF.size_eq {s : CStorage} (h : WF s) : s.size = (s.order.length : Int) :=
  h.2.2.1

theorem WF.size_le {s : CStorage} (h : WF s) : s.size ≤ s.config.Capacity :=
  h.2.2.2

theorem WF.keys_nodup {s : CStorage} (h : WF s) : (keys s.table).Nodup :=
  h.perm.nodup_iff.mpr h.nodup

theorem WF_New {cfg : CStorageConfig} (h : 0 ≤ cfg.Capacity) : WF (New cfg) :=
  ⟨List.Perm.refl _, List.nodup_nil, rfl, h⟩

theorem evictNode_perm {s : CStorage} {k : String} (h : WF s) :
    (keys (tableDelete s.table k)).Perm (s.order.erase k) := by
  rw [keys_tableDelete h.keys_nodup]
  exact h.perm.erase k


theorem Get_not_found {s : CStorage} {k : String} {now : Int}
    (hg : tableGet s.table k = none) : Get s k now = (none, false, s) := by
  simp only [Get, hg]

theorem Get_expired {s : CStorage} {k : String} {n : Node} {now : Int}
    (hg : tableGet s.table k = some n) (hexp : n.ttl < now) :
    Get s k now = (none, false,
      { table := tableDelete s.table k, order := s.order.erase k,
        size := s.size - 1, config := s.config }) := by
  simp only [Get, hg, if_pos hexp]
  rfl

theorem Get_live {s : CStorage} {k : String} {n : Node} {now : Int}
    (hg : tableGet s.table k = some n) (hexp : ¬ n.ttl < now) :
    Get s k now = (some n.data, true, s) := by
  simp only [Get, hg, if_neg hexp]

theorem Delete_not_found {s : CStorage} {k : String}
    (hg : tableGet s.table k = none) : Delete s k = (false, s) := by
  simp only [Delete, hg]

theorem Delete_hit {s : CStorage} {k : String} {n : Node}
    (hg : tableGet s.table k = some n) :
    Delete s k = (true,
      { table := tableDelete s.table k, order := s.order.erase k,
        size := s.size - 1, config := s.config }) := by
  simp only [Delete, hg]
  rfl

theorem Put_update {s : CStorage} {k : String} {d : List Nat} {now : Int} {n : Node}
    (hg : tableGet s.table k = some n) :
    Put s k d now = some (true,
      { table := tableReplace s.table k ⟨d, now + s.config.Ttl⟩,
        order := k :: s.order.erase k, size := s.size, config := s.config }) := by
  simp only [Put, hg]
  rfl

theorem Put_fresh_step {s s1 : CStorage} {k : String} {d : List Nat} {now : Int}
    (hg : tableGet s.table k = none) (hev : evictLoop s = some s1) :
    Put s k d now = some (false,
      { table := (k, ⟨d, now + s.config.Ttl⟩) :: s1.table,
        order := k :: s1.order.erase k, size := s1.size + 1,
        config := s1.config }) := by
  simp only [Put, hg, hev]
  rfl

theorem Put_fresh_panic {s : CStorage} {k : String} {d : List Nat} {now : Int}
    (hg : tableGet s.table k = none) (hev : evictLoop s = none) :
    Put s k d now = none := by
  simp only [Put, hg, hev]

theorem Get_wf {s : CStorage} {k : String} {now : Int} (h : WF s) :
    WF (Get s k now).2.2 ∧ (Get s k now).2.2.config = s.config := by
  rcases hg : tableGet s.table k with _ | n
  · rw [Get_not_found hg]
    exact ⟨h, rfl⟩
  · by_cases hexp : n.ttl < now
    · rw [Get_expired hg hexp]
      have hk : k ∈ s.order := h.perm.mem_iff.mp (tableGet_mem_keys hg)
      have hlen : 1 ≤ s.order.length := List.length_pos.mpr (List.ne_nil_of_mem hk)
      have hsz := h.size_eq
      have hle := h.size_le
      refine ⟨⟨evictNode_perm h, h.nodup.erase k, ?_, ?_⟩, rfl⟩
      · show s.size - 1 = ((s.order.erase k).length : Int)
        rw [List.length_erase_of_mem hk]
        omega
      · show s.size - 1 ≤ s.config.Capacity
        omega
    · rw [Get_live hg hexp]
      exact ⟨h, rfl⟩

theorem Delete_wf {s : CStorage} {k : String} (h : WF s) :
    WF (Delete s k).2 ∧ (Delete s k).2.config = s.config := by
  rcases hg : tableGet s.table k with _ | n
  · rw [Delete_not_found hg]
    exact ⟨h, rfl⟩
  · rw [Delete_hit hg]
    have hk : k ∈ s.order := h.perm.mem_iff.mp (tableGet_mem_keys hg)
    have hlen : 1 ≤ s.order.length := List.length_pos.mpr (List.ne_nil_of_mem hk)
    have hsz := h.size_eq
    have hle := h.size_le
    refine ⟨⟨evictNode_perm h, h.nodup.erase k, ?_, ?_⟩, rfl⟩
    · show s.size - 1 = ((s.order.erase k).length : Int)
      rw [List.length_erase_of_mem hk]
      omega
    · show s.size - 1 ≤ s.config.Capacity
      omega

theorem evictFuel_spec {fuel : Nat} :
    ∀ {s s' : CStorage}, (keys s.table).Perm s.order → s.order.Nodup →
      s.size = (s.order.length : Int) →
      evictFuel fuel s = some s' →
      (keys s'.table).Perm s'.order ∧ s'.order.Nodup ∧
        s'.size = (s'.order.length : Int) ∧ s'.size < s'.config.Capacity ∧
        s'.config = s.config ∧ s'.order ⊆ s.order := by
  induction fuel with
  | zero =>
    intro s s' _ _ _ h
    cases h
  | succ fuel ih =>
    intro s s' hperm hnd hsz h
    simp only [evictFuel] at h
    by_cases hlt : s.size < s.config.Capacity
    · rw [if_pos hlt] at h
      have hs' : s = s' := by injection h
      subst hs'
      exact ⟨hperm, hnd, hsz, hlt, rfl, List.Subset.refl _⟩
    · rw [if_neg hlt] at h
      rcases hl : s.order.getLast? with _ | k
      · rw [hl] at h
        cases h
      · rw [hl] at h
        have hk : k ∈ s.order := mem_of_getLast_some hl
        have hlen : 1 ≤ s.order.length := List.length_pos.mpr (List.ne_nil_of_mem hk)
        have hknd : (keys s.table).Nodup := hperm.nodup_iff.mpr hnd
        have hperm2 : (keys (tableDelete s.table k)).Perm (s.order.erase k) := by
          rw [keys_tableDelete hknd]
          exact hperm.erase k
        have hsz2 : s.size - 1 = ((s.order.erase k).length : Int) := by
          rw [List.length_erase_of_mem hk]
          omega
        rcases ih hperm2 (hnd.erase k) hsz2 h with ⟨p1, p2, p3, p4, p5, p6⟩
        refine ⟨p1, p2, p3, p4, p5, p6.trans ?_⟩
        intro x hx
        exact List.mem_of_mem_erase hx

theorem Put_wf {s : CStorage} {k : String} {d : List Nat} {now : Int}
    {r : Bool × CStorage} (h : WF s) (hres : Put s k d now = some r) :
    WF r.2 ∧ r.2.config = s.config := by
  rcases hg : tableGet s.table k with _ | n
  · rcases hev : evictLoop s with _ | s1
    · rw [Put_fresh_panic hg hev] at hres
      cases hres
    · rw [Put_fresh_step hg hev] at hres
      have hr : r = (false,
          { table := (k, ⟨d, now + s.config.Ttl⟩) :: s1.table,
            order := k :: s1.order.erase k, size := s1.size + 1,
            config := s1.config }) := by
        injection hres with h1
        rw [← h1]
      rcases evictFuel_spec h.perm h.nodup h.size_eq hev with ⟨p1, p2, p3, p4, p5, p6⟩
      have hknot : k ∉ s.order := fun hmem =>
        (tableGet_eq_none_iff.mp hg) (h.perm.mem_iff.mpr hmem)
      have hknot1 : k ∉ s1.order := fun hmem => hknot (p6 hmem)
      have herase : s1.order.erase k = s1.order := List.erase_of_not_mem hknot1
      rw [hr]
      refine ⟨⟨?_, ?_, ?_, ?_⟩, p5⟩
      · show (keys ((k, _) :: s1.table)).Perm (k :: s1.order.erase k)
        rw [keys_cons, herase]
        exact p1.cons k
      · show (k :: s1.order.erase k).Nodup
        rw [herase]
        exact p2.cons hknot1
      · show s1.size + 1 = ((k :: s1.order.erase k).length : Int)
        rw [herase]
        simp only [List.length_cons]
        omega
      · show s1.size + 1 ≤ s1.config.Capacity
        omega
  · rw [Put_update hg] at hres
    have hr : r = (true,
        { table := tableReplace s.table k ⟨d, now + s.config.Ttl⟩,
          order := k :: s.order.erase k, size := s.size, config := s.config }) := by
      injection hres with h1
      rw [← h1]
    have hk : k ∈ s.order := h.perm.mem_iff.mp (tableGet_mem_keys hg)
    have hlen : 1 ≤ s.order.length := List.length_pos.mpr (List.ne_nil_of_mem hk)
    rw [hr]
    refine ⟨⟨?_, ?_, ?_, ?_⟩, rfl⟩
    · show (keys (tableReplace s.table k _)).Perm (k :: s.order.erase k)
      rw [keys_tableReplace]
      exact h.perm.trans (List.perm_cons_erase hk)
    · show (k :: s.order.erase k).Nodup
      refine (h.nodup.erase k).cons ?_
      intro hmem
      exact ((h.nodup.mem_erase_iff).mp hmem).1 rfl
    · show s.size = ((k :: s.order.erase k).length : Int)
      simp only [List.length_cons]
      rw [List.length_erase_of_mem hk]
      have := h.size_eq
      omega
    · exact h.size_le

theorem clearFuel_spec {fuel : Nat} :
    ∀ {s : CStorage}, (keys s.table).Perm s.order → s.order.Nodup →
      s.order.length < fuel →
      (clearFuel fuel s).order = [] ∧ (clearFuel fuel s).table = [] ∧
        (clearFuel fuel s).config = s.config := by
  induction fuel with
  | zero =>
    intro s _ _ hfuel
    omega
  | succ fuel ih =>
    intro s hperm hnd hfuel
    simp only [clearFuel]
    rcases hl : s.order.getLast? with _ | k
    · have hord : s.order = [] := List.getLast?_eq_none_iff.mp hl
      have hkeys : keys s.table = [] := (hord ▸ hperm).eq_nil
      have htab : s.table = [] := by
        have h2 := hkeys
        unfold keys at h2
        exact List.map_eq_nil_iff.mp h2
      exact ⟨hord, htab, rfl⟩
    · have hk : k ∈ s.order := mem_of_getLast_some hl
      have hlen : 1 ≤ s.order.length := List.length_pos.mpr (List.ne_nil_of_mem hk)
      have hknd : (keys s.table).Nodup := hperm.nodup_iff.mpr hnd
      have hperm2 : (keys (tableDelete s.table k)).Perm (s.order.erase k) := by
        rw [keys_tableDelete hknd]
        exact hperm.erase k
      have hlen2 : (s.order.erase k).length < fuel := by
        rw [List.length_erase_of_mem hk]
        omega
      exact ih hperm2 (hnd.erase k) hlen2

theorem Clear_wf {s : CStorage} (h : WF s) :
    WF (Clear s) ∧ (Clear s).config = s.config := by
  have hsz := h.size_eq
  have hle := h.size_le
  have h0 : (0 : Int) ≤ s.config.Capacity := by
    have hnn : (0 : Int) ≤ (s.order.length : Int) := Int.ofNat_nonneg _
    omega
  rcases clearFuel_spec h.perm h.nodup (Nat.lt_succ_self _) with ⟨p1, p2, p3⟩
  unfold Clear
  refine ⟨⟨?_, ?_, ?_, ?_⟩, p3⟩
  · show (keys (clearFuel _ s).table).Perm (clearFuel _ s).order
    rw [p1, p2]
    exact List.Perm.refl _
  · show (clearFuel _ s).order.Nodup
    rw [p1]
    exact List.nodup_nil
  · show (0 : Int) = ((clearFuel _ s).order.length : Int)
    rw [p1]
    rfl
  · show (0 : Int) ≤ (clearFuel _ s).config.Capacity
    rw [p3]
    exact h0

theorem removeExpiredGo_wf {now : Int} {es : List (String × Node)} :
    ∀ {s : CStorage}, WF s → WF (removeExpiredGo es now s).1 ∧
      (removeExpiredGo es now s).1.config = s.config := by
  induction es with
  | nil =>
    intro s h
    exact ⟨h, rfl⟩
  | cons p rest ih =>
    intro s h
    rcases p with ⟨k, n⟩
    simp only [removeExpiredGo]
    by_cases hexp : n.ttl < now
    · rw [if_pos hexp]
      rcases ih (Delete_wf h).1 with ⟨q1, q2⟩
      exact ⟨q1, q2.trans (Delete_wf h).2⟩
    · rw [if_neg hexp]
      exact ih h

theorem RemoveExpired_wf {s : CStorage} {now : Int} (h : WF s) :
    WF (RemoveExpired s now).1 ∧ (RemoveExpired s now).1.config = s.config :=
  removeExpiredGo_wf h

theorem step_wf {s s' : CStorage} {op : Op} (h : WF s) (hstep : step s op = some s') :
    WF s' ∧ s'.config = s.config := by
  cases op with
  | get k now =>
    have hs' : s' = (Get s k now).2.2 := by
      simp only [step] at hstep
      injection hstep with h1
      rw [h1]
    rw [hs']
    exact Get_wf h
  | put k d now =>
    simp only [step] at hstep
    rcases hp : Put s k d now with _ | r
    · rw [hp] at hstep
      cases hstep
    · rw [hp] at hstep
      have hs' : s' = r.2 := by
        have h1 : some r.2 = some s' := hstep
        injection h1 with h2
        rw [h2]
      rw [hs']
      exact Put_wf h hp
  | del k =>
    have hs' : s' = (Delete s k).2 := by
      simp only [step] at hstep
      injection hstep with h1
      rw [h1]
    rw [hs']
    exact Delete_wf h
  | clear =>
    have hs' : s' = Clear s := by
      simp only [step] at hstep
      injection hstep with h1
      rw [h1]
    rw [hs']
    exact Clear_wf h
  | removeExpired now =>
    have hs' : s' = (RemoveExpired s now).1 := by
      simp only [step] at hstep
      injection hstep with h1
      rw [h1]
    rw [hs']
    exact RemoveExpired_wf h

theorem runFrom_wf {ops : List Op} :
    ∀ {s s' : CStorage}, WF s → runFrom s ops = some s' →
      WF s' ∧ s'.config = s.config := by
  induction ops with
  | nil =>
    intro s s' h hrun
    have hs : s = s' := by
      simp only [runFrom] at hrun
      injection hrun
    rw [← hs]
    exact ⟨h, rfl⟩
  | cons op ops ih =>
    intro s s' h hrun
    simp only [runFrom] at hrun
    rcases hst : step s op with _ | s1
    · rw [hst] at hrun
      cases hrun
    · rw [hst] at hrun
      rcases step_wf h hst with ⟨q1, q2⟩
      rcases ih q1 hrun with ⟨r1, r2⟩
      exact ⟨r1, r2.trans q2⟩

theorem run_wf {cfg : CStorageConfig} {ops : List Op} {s : CStorage}
    (hcap : 0 ≤ cfg.Capacity) (hrun : run cfg ops = some s) :
    WF s ∧ s.config = cfg :=
  runFrom_wf (WF_New hcap) hrun

/-! ## Claim C1

The spec says a live `Get` moves the entry to the head of the recency
order.  The source's own doc comment for `Get` promises the same ("it will
move the node by eviction policy"), but the implemented hit path returns
`n.data` without calling `setHead`, so a key just read via `Get` is still
the tail and is the next eviction victim. -/

/-- The reachable state after `Put "k1"` then `Put "k2"` on a fresh engine
with capacity 2 and TTL 100. -/
def c1StateAB : CStorage :=
  { table := [("k2", ⟨[2], 100⟩), ("k1", ⟨[1], 100⟩)],
    order := ["k2", "k1"], size := 2, config := { Ttl := 100, Capacity := 2 } }

/-- The state after additionally putting the fresh key "k3". -/
def c1StateAfterPut : CStorage :=
  { table := [("k3", ⟨[3], 101⟩), ("k2", ⟨[2], 100⟩)],
    order := ["k3", "k2"], size := 2, config := { Ttl := 100, Capacity := 2 } }

/-- C1: code bug.  On the reachable two-entry state, a live `Get "k1"`
returns the value with `found = true` but leaves the state — in particular
the recency order `["k2", "k1"]` — completely unchanged instead of moving
"k1" to the head, and the very next new-key `Put` evicts "k1" even though
it was the most recently read key.  This contradicts the claim (and the
`Get` doc comment in the source). -/
theorem C1_get_does_not_refresh_recency :
    run { Ttl := 100, Capacity := 2 } [Op.put "k1" [1] 0, Op.put "k2" [2] 0] =
        some c1StateAB ∧
    Get c1StateAB "k1" 1 = (some [1], true, c1StateAB) ∧
    Put c1StateAB "k3" [3] 1 = some (false, c1StateAfterPut) ∧
    tableGet c1StateAfterPut.table "k1" = none := by
  decide

/-! ## Claim C4 -/

/-- C4: in every state reachable from a fresh engine (capacity ≥ 1) by any
sequence of `Get`, `Put`, `Delete`, `Clear` and `RemoveExpired` operations,
the tracked `size` equals the number of table entries and the number of
nodes in the recency order, and `size ≤ capacity` (so in particular at the
end of every `Put`). -/
theorem C4_count_invariant {cfg : CStorageConfig} {ops : List Op} {s : CStorage}
    (hcap : 1 ≤ cfg.Capacity) (hrun : run cfg ops = some s) :
    s.size = (s.table.length : Int) ∧ s.size = (s.order.length : Int) ∧
      s.size ≤ cfg.Capacity := by
  have h0 : (0 : Int) ≤ cfg.Capacity := by omega
  rcases run_wf h0 hrun with ⟨hwf, hcfg⟩
  have hlen : (keys s.table).length = s.order.length := hwf.perm.length_eq
  have htab : (keys s.table).length = s.table.length := List.length_map _ _
  refine ⟨?_, hwf.size_eq, ?_⟩
  · rw [hwf.size_eq, ← hlen, htab]
  · have := hwf.size_le
    rw [hcfg] at this
    exact this

/-- Witness for C4 at a concrete run mixing all five operations. -/
theorem C4_count_invariant_witness :
    (1 : Int) ≤ ({ Ttl := 5, Capacity := 2 } : CStorageConfig).Capacity ∧
    run { Ttl := 5, Capacity := 2 }
        [Op.put "a" [1] 0, Op.put "b" [2] 0, Op.put "c" [3] 1, Op.get "b" 2,
         Op.del "c", Op.put "d" [4] 3, Op.removeExpired 7] =
      some { table := [("d", ⟨[4], 8⟩)], order := ["d"], size := 1,
             config := { Ttl := 5, Capacity := 2 } } ∧
    ((1 : Int) = (([("d", (⟨[4], 8⟩ : Node))].length : Int)) ∧
      (1 : Int) = ((["d"].length : Int)) ∧ (1 : Int) ≤ (2 : Int)) :=
  ⟨by decide, by decide,
    C4_count_invariant (by decide)
      (show run { Ttl := 5, Capacity := 2 }
          [Op.put "a" [1] 0, Op.put "b" [2] 0, Op.put "c" [3] 1, Op.get "b" 2,
           Op.del "c", Op.put "d" [4] 3, Op.removeExpired 7] =
        some { table := [("d", ⟨[4], 8⟩)], order := ["d"], size := 1,
               config := { Ttl := 5, Capacity := 2 } } by decide)⟩

/-! ## Claim C5

The spec requires `Put` with `capacity = 0` to complete without crashing
(inserting then immediately evicting, net zero entries).  In the source,
`Put` of a fresh key with `size ≥ Capacity` and an empty list calls
`s.evict(s.tail)` with `s.tail == nil`, and `evict` dereferences its
argument (`n.prev = nil`) in every branch: a nil-pointer panic, modelled
here as `none`. -/

/-- C5: code bug.  On a fresh engine with capacity 0, `Put` of a new key
panics (nil dereference inside `evict`) instead of completing with net
zero entries; the same happens for any non-positive capacity once the
eviction loop empties the list. -/
theorem C5_capacity_zero_put_panics :
    Put (New { Ttl := 10, Capacity := 0 }) "a" [1] 0 = none ∧
    Put (New { Ttl := 10, Capacity := -1 }) "a" [1] 0 = none := by
  decide

/-! ## Claim C6

The claim says construction rejects non-positive capacities.  `New` in the
source performs no validation at all and cannot fail: it returns a fully
constructed engine for every config. -/

/-- Counterexample to C6: at the concrete non-positive capacity -1,
construction does not fail — it returns an engine with empty index and
count 0, on which lookups and deletes operate normally. -/
theorem C6_cex_new_accepts_negative_capacity :
    New { Ttl := 5, Capacity := -1 } =
      { table := [], order := [], size := 0,
        config := { Ttl := 5, Capacity := -1 } } ∧
    Delete (New { Ttl := 5, Capacity := -1 }) "k" =
      (false, New { Ttl := 5, Capacity := -1 }) ∧
    Size (New { Ttl := 5, Capacity := -1 }) = 0 := by
  decide

/-- C6 (amended): `New` never rejects a configuration.  For every config
with non-positive capacity it still returns the fresh engine (empty index
and order, count 0); the engine answers `Get` with not-found, but any
new-key `Put` on it panics in the eviction loop. -/
theorem C6_new_never_rejects (cfg : CStorageConfig) (k : String) (d : List Nat)
    (now : Int) (hcap : cfg.Capacity ≤ 0) :
    New cfg = { table := [], order := [], size := 0, config := cfg } ∧
    Get (New cfg) k now = (none, false, New cfg) ∧
    Put (New cfg) k d now = none := by
  refine ⟨rfl, Get_not_found rfl, Put_fresh_panic rfl ?_⟩
  have hlt : ¬ (New cfg).size < (New cfg).config.Capacity := by
    show ¬ (0 : Int) < cfg.Capacity
    omega
  show evictFuel 1 (New cfg) = none
  simp only [evictFuel, if_neg hlt]
  rfl

/-- Witness for C6 (amended) at capacity -2. -/
theorem C6_new_never_rejects_witness :
    ({ Ttl := 5, Capacity := -2 } : CStorageConfig).Capacity ≤ 0 ∧
    (New { Ttl := 5, Capacity := -2 } =
        { table := [], order := [], size := 0,
          config := { Ttl := 5, Capacity := -2 } } ∧
      Get (New { Ttl := 5, Capacity := -2 }) "k" 3 =
        (none, false, New { Ttl := 5, Capacity := -2 }) ∧
      Put (New { Ttl := 5, Capacity := -2 }) "k" [7] 3 = none) :=
  ⟨by decide, C6_new_never_rejects { Ttl := 5, Capacity := -2 } "k" [7] 3 (by decide)⟩

/-! ## Claim C7

The claim says every public operation acquires the engine lock and holds
it for the whole operation.  In the source only `Get`, `Put`, `Delete` and
`Clear` do; `Size` and `Cap` read the state with no lock at all, and
`RemoveExpired` iterates the map without the lock, locking only inside
each nested `Delete` call. -/

/-- Counterexample to C7: `Size`, `Cap` and `RemoveExpired` do not acquire
the lock for their bodies, refuting "every public operation acquires the
lock ... for the whole operation". -/
theorem C7_cex_unlocked_operations :
    holdsLockForWholeBody PublicOp.size = false ∧
    holdsLockForWholeBody PublicOp.cap = false ∧
    holdsLockForWholeBody PublicOp.removeExpired = false := by
  decide

/-- C7 (amended): exactly `Get`, `Put`, `Delete` and `Clear` are single
whole-body critical sections; `Size`, `Cap` and `RemoveExpired` touch the
engine state without acquiring the lock themselves (`RemoveExpired` is a
sequence of per-key `Delete` critical sections, not one atomic scan). -/
theorem C7_lock_discipline :
    (holdsLockForWholeBody PublicOp.get = true ∧
      holdsLockForWholeBody PublicOp.put = true ∧
      holdsLockForWholeBody PublicOp.del = true ∧
      holdsLockForWholeBody PublicOp.clear = true) ∧
    holdsLockForWholeBody PublicOp.size = false ∧
    holdsLockForWholeBody PublicOp.cap = false ∧
    holdsLockForWholeBody PublicOp.removeExpired = false := by
  decide

/-! ## Claim C2

Expiry in the source is strict: `n.ttl.Before(time.Now())`, i.e. the entry
is treated as expired only when `expiresAt < now`.  At `now = expiresAt`
exactly, `Get` still returns the value with `found = true`, so the claim's
"at or before" / "any time ≥ T+d" boundary is off by one instant. -/

/-- The reachable one-entry state after `Put "k" [7]` at time 0 with TTL 5;
the entry's `expiresAt` is 5. -/
def c2BoundaryState : CStorage :=
  { table := [("k", ⟨[7], 5⟩)], order := ["k"], size := 1,
    config := { Ttl := 5, Capacity := 1 } }

/-- Counterexample to C2: a key written at T = 0 with TTL d = 5, queried
at exactly `now = T + d = 5`, returns `(value, found = true)` and removes
nothing — the claim says any query at time ≥ T+d returns `found = false`
and removes the entry. -/
theorem C2_cex_boundary_found_true :
    run { Ttl := 5, Capacity := 1 } [Op.put "k" [7] 0] = some c2BoundaryState ∧
    Get c2BoundaryState "k" 5 = (some [7], true, c2BoundaryState) := by
  decide

/-- C2 (amended): for a key present with node `n`, if `expiresAt` is
strictly before `now`, `Get` removes the entry from both index and order,
decrements `count` by exactly one, leaves every other entry unchanged and
returns `found = false`; if `now ≤ expiresAt` (so for a key written at T
with TTL d, at any time up to and including T+d), `Get` returns the
last-written value with `found = true`. -/
theorem C2_lazy_expiry {s : CStorage} {k : String} {n : Node} {now : Int}
    (hwf : WF s) (hfind : tableGet s.table k = some n) :
    (n.ttl < now →
      ∃ s', Get s k now = (none, false, s') ∧
        s'.size = s.size - 1 ∧ tableGet s'.table k = none ∧ k ∉ s'.order ∧
        (∀ k2, k2 ≠ k → tableGet s'.table k2 = tableGet s.table k2)) ∧
    (now ≤ n.ttl → Get s k now = (some n.data, true, s)) := by
  constructor
  · intro hexp
    refine ⟨_, Get_expired hfind hexp, rfl, tableGet_tableDelete_self, ?_, ?_⟩
    · intro hmem
      exact ((hwf.nodup.mem_erase_iff).mp hmem).1 rfl
    · intro k2 hk2
      exact tableGet_tableDelete_ne hk2
  · intro hle
    exact Get_live hfind (by omega)

/-- The state used to witness C2: "a" expired at 5, "b" live until 18,
queried at time 9. -/
def c2ExpState : CStorage :=
  { table := [("a", ⟨[1], 5⟩), ("b", ⟨[2], 18⟩)], order := ["b", "a"],
    size := 2, config := { Ttl := 5, Capacity := 2 } }

/-- Witness for C2 on a concrete two-entry state with an expired entry. -/
theorem C2_lazy_expiry_witness :
    (WF c2ExpState ∧ tableGet c2ExpState.table "a" = some ⟨[1], 5⟩) ∧
    (((⟨[1], 5⟩ : Node).ttl < 9 →
      ∃ s', Get c2ExpState "a" 9 = (none, false, s') ∧
        s'.size = c2ExpState.size - 1 ∧ tableGet s'.table "a" = none ∧
        "a" ∉ s'.order ∧
        (∀ k2, k2 ≠ "a" →
          tableGet s'.table k2 = tableGet c2ExpState.table k2)) ∧
    ((9 : Int) ≤ (⟨[1], 5⟩ : Node).ttl →
      Get c2ExpState "a" 9 = (some [1], true, c2ExpState))) :=
  ⟨⟨by decide, by decide⟩, C2_lazy_expiry (by decide) (by decide)⟩

/-! ## Claim C9 -/

/-- C9: `Put` on a key already present takes the update path: it returns
`hit = true`, overwrites the stored value, resets `expiresAt` to
`now + Ttl`, moves the key to the head of the recency order, and leaves
`count`, the configuration and every other entry unchanged. -/
theorem C9_put_update_frame {s : CStorage} {k : String} {d : List Nat}
    {now : Int} {n : Node} (hfind : tableGet s.table k = some n) :
    ∃ s', Put s k d now = some (true, s') ∧
      s'.size = s.size ∧
      tableGet s'.table k = some ⟨d, now + s.config.Ttl⟩ ∧
      s'.order = k :: s.order.erase k ∧
      (∀ k2, k2 ≠ k → tableGet s'.table k2 = tableGet s.table k2) ∧
      s'.config = s.config := by
  refine ⟨_, Put_update hfind, rfl, tableGet_tableReplace_self hfind, rfl, ?_, rfl⟩
  intro k2 hk2
  exact tableGet_tableReplace_ne hk2

/-- The state used to witness C9: two live entries, "a" at the tail. -/
def c9State : CStorage :=
  { table := [("a", ⟨[1], 10⟩), ("b", ⟨[2], 10⟩)], order := ["b", "a"],
    size := 2, config := { Ttl := 5, Capacity := 2 } }

/-- Witness for C9: updating "a" at time 3 refreshes its value and expiry
(to 8), moves it to the head, and leaves `count` and "b" untouched. -/
theorem C9_put_update_frame_witness :
    tableGet c9State.table "a" = some (⟨[1], 10⟩ : Node) ∧
    (∃ s', Put c9State "a" [9] 3 = some (true, s') ∧
      s'.size = c9State.size ∧
      tableGet s'.table "a" = some ⟨[9], 3 + c9State.config.Ttl⟩ ∧
      s'.order = "a" :: c9State.order.erase "a" ∧
      (∀ k2, k2 ≠ "a" → tableGet s'.table k2 = tableGet c9State.table k2) ∧
      s'.config = c9State.config) :=
  ⟨by decide, C9_put_update_frame
    (show tableGet c9State.table "a" = some (⟨[1], 10⟩ : Node) by decide)⟩

/-! ## Claim C10

`Put` reads the table and branches on presence only; no comparison with
the current time occurs anywhere in it (the only use of the clock is to
compute the new `expiresAt`).  So an entry whose `expiresAt` has already
passed is still "present" for `Put` and is refreshed in place. -/

/-- C10: for a key present in the index whose `expiresAt` is at or before
the current time, `Put` still takes the update path: `hit = true`, the
value is overwritten, `expiresAt` is reset to `now + Ttl`, the key moves
to the head, and `count` is unchanged — the expired entry is refreshed in
place, not treated as absent. -/
theorem C10_put_ignores_expiry {s : CStorage} {k : String} {d : List Nat}
    {now : Int} {n : Node} (hfind : tableGet s.table k = some n)
    (_hexp : n.ttl ≤ now) :
    ∃ s', Put s k d now = some (true, s') ∧
      s'.size = s.size ∧
      tableGet s'.table k = some ⟨d, now + s.config.Ttl⟩ ∧
      s'.order = k :: s.order.erase k := by
  exact ⟨_, Put_update hfind, rfl, tableGet_tableReplace_self hfind, rfl⟩

/-- The state used to witness C10: a single entry expired at 5. -/
def c10State : CStorage :=
  { table := [("x", ⟨[3], 5⟩)], order := ["x"], size := 1,
    config := { Ttl := 4, Capacity := 1 } }

/-- Witness for C10: at time 9 (entry "x" expired at 5), `Put` refreshes
"x" in place with `hit = true` and expiry 13, keeping `count` at 1. -/
theorem C10_put_ignores_expiry_witness :
    (tableGet c10State.table "x" = some (⟨[3], 5⟩ : Node) ∧ (⟨[3], 5⟩ : Node).ttl ≤ 9) ∧
    (∃ s', Put c10State "x" [8] 9 = some (true, s') ∧
      s'.size = c10State.size ∧
      tableGet s'.table "x" = some ⟨[8], 9 + c10State.config.Ttl⟩ ∧
      s'.order = "x" :: c10State.order.erase "x") :=
  ⟨⟨by decide, by decide⟩,
    C10_put_ignores_expiry
      (show tableGet c10State.table "x" = some (⟨[3], 5⟩ : Node) by decide)
      (show (⟨[3], 5⟩ : Node).ttl ≤ 9 by decide)⟩

theorem tableGet_some_mem {t : List (String × Node)} {k : String} {n : Node}
    (h : tableGet t k = some n) : (k, n) ∈ t := by
  induction t with
  | nil => cases h
  | cons p rest ih =>
    rcases p with ⟨pk, pn⟩
    by_cases hp : pk = k
    · simp only [tableGet, if_pos hp] at h
      have hn : pn = n := by injection h
      rw [← hp, ← hn]
      exact List.mem_cons_self _ _
    · simp only [tableGet, if_neg hp] at h
      exact List.mem_cons_of_mem _ (ih h)

theorem removeExpiredGo_spec {now : Int} :
    ∀ (es : List (String × Node)) (s : CStorage), WF s →
      (es.map Prod.fst).Nodup →
      (∀ p ∈ es, tableGet s.table p.1 = some p.2) →
      (removeExpiredGo es now s).2 =
          ((es.filter (fun p => decide (p.2.ttl < now))).length : Int) ∧
        (removeExpiredGo es now s).1.size = s.size - (removeExpiredGo es now s).2 ∧
        (removeExpiredGo es now s).1.config = s.config ∧
        (∀ p ∈ es, p.2.ttl < now →
          tableGet (removeExpiredGo es now s).1.table p.1 = none) ∧
        (∀ k2, (∀ p ∈ es, p.2.ttl < now → p.1 ≠ k2) →
          tableGet (removeExpiredGo es now s).1.table k2 = tableGet s.table k2) := by
  intro es
  induction es with
  | nil =>
    intro s _ _ _
    refine ⟨rfl, ?_, rfl, ?_, ?_⟩
    · show s.size = s.size - 0
      omega
    · intro p hp
      cases hp
    · intro k2 _
      rfl
  | cons q rest ih =>
    intro s hwf hnd hpres
    rcases q with ⟨k0, n0⟩
    have hk0 : k0 ∉ rest.map Prod.fst := (List.nodup_cons.mp hnd).1
    have hndr : (rest.map Prod.fst).Nodup := (List.nodup_cons.mp hnd).2
    have hq0 : tableGet s.table k0 = some n0 := hpres (k0, n0) (List.mem_cons_self _ _)
    by_cases hexp : n0.ttl < now
    · have hdel := Delete_hit hq0
      have hwf1 : WF (Delete s k0).2 := (Delete_wf hwf).1
      have hD_table : (Delete s k0).2.table = tableDelete s.table k0 := by
        rw [hdel]
      have hD_size : (Delete s k0).2.size = s.size - 1 := by
        rw [hdel]
      have hD_config : (Delete s k0).2.config = s.config := by
        rw [hdel]
      have hpres1 : ∀ p ∈ rest, tableGet (Delete s k0).2.table p.1 = some p.2 := by
        intro p hp
        have hne : p.1 ≠ k0 := by
          intro hh
          exact hk0 (hh ▸ List.mem_map_of_mem Prod.fst hp)
        rw [hD_table, tableGet_tableDelete_ne hne]
        exact hpres p (List.mem_cons_of_mem _ hp)
      rcases ih (Delete s k0).2 hwf1 hndr hpres1 with ⟨i1, i2, i3, i4, i5⟩
      simp only [removeExpiredGo, if_pos hexp]
      refine ⟨?_, ?_, ?_, ?_, ?_⟩
      · have hfc : ((k0, n0) :: rest).filter (fun p => decide (p.2.ttl < now)) =
            (k0, n0) :: rest.filter (fun p => decide (p.2.ttl < now)) := by
          simp [List.filter_cons, hexp]
        rw [i1, hfc, List.length_cons]
        push_cast
        ring
      · rw [i2, hD_size]
        ring
      · rw [i3, hD_config]
      · intro p hp hpexp
        rcases List.mem_cons.mp hp with hph | hpr
        · have hp1 : p.1 = k0 := by rw [hph]
          rw [hp1]
          have hfree : ∀ p2 ∈ rest, p2.2.ttl < now → p2.1 ≠ k0 := by
            intro p2 hp2 _ hh
            exact hk0 (hh ▸ List.mem_map_of_mem Prod.fst hp2)
          rw [i5 k0 hfree, hD_table]
          exact tableGet_tableDelete_self
        · exact i4 p hpr hpexp
      · intro k2 hfree
        have hfree1 : ∀ p ∈ rest, p.2.ttl < now → p.1 ≠ k2 := by
          intro p hp hpexp
          exact hfree p (List.mem_cons_of_mem _ hp) hpexp
        have hk2ne : k2 ≠ k0 := by
          intro hh
          exact hfree (k0, n0) (List.mem_cons_self _ _) hexp hh.symm
        rw [i5 k2 hfree1, hD_table, tableGet_tableDelete_ne hk2ne]
    · have hpres1 : ∀ p ∈ rest, tableGet s.table p.1 = some p.2 := by
        intro p hp
        exact hpres p (List.mem_cons_of_mem _ hp)
      rcases ih s hwf hndr hpres1 with ⟨i1, i2, i3, i4, i5⟩
      simp only [removeExpiredGo, if_neg hexp]
      refine ⟨?_, i2, i3, ?_, ?_⟩
      · have hfc : ((k0, n0) :: rest).filter (fun p => decide (p.2.ttl < now)) =
            rest.filter (fun p => decide (p.2.ttl < now)) := by
          simp [List.filter_cons, hexp]
        rw [hfc]
        exact i1
      · intro p hp hpexp
        rcases List.mem_cons.mp hp with hph | hpr
        · exfalso
          rw [hph] at hpexp
          exact hexp hpexp
        · exact i4 p hpr hpexp
      · intro k2 hfree
        have hfree1 : ∀ p ∈ rest, p.2.ttl < now → p.1 ≠ k2 := by
          intro p hp hpexp
          exact hfree p (List.mem_cons_of_mem _ hp) hpexp
        exact i5 k2 hfree1

/-! ## Claim C8

As with `Get`, the expiry check in `RemoveExpired` is the strict
`value.ttl.Before(time.Now())`: an entry whose `expiresAt` equals the
current time is kept and not counted, so the claim's "at or before"
boundary fails.  With strict expiry, the rest of the claim holds:
`RemoveExpired` deletes exactly the entries with `expiresAt < now`,
returns their number, and `Size` drops by the returned count. -/

/-- The reachable one-entry state after `Put "a" [1]` at time 0 with TTL 5. -/
def c8BoundaryState : CStorage :=
  { table := [("a", ⟨[1], 5⟩)], order := ["a"], size := 1,
    config := { Ttl := 5, Capacity := 1 } }

/-- Counterexample to C8: at `now = 5`, the single entry has
`expiresAt = 5` — at, hence "at or before", the current time — yet
`RemoveExpired` deletes nothing and returns 0, where the claim requires it
to delete the entry and return 1. -/
theorem C8_cex_boundary_not_removed :
    run { Ttl := 5, Capacity := 1 } [Op.put "a" [1] 0] = some c8BoundaryState ∧
    RemoveExpired c8BoundaryState 5 = (c8BoundaryState, 0) := by
  decide

/-- C8 (amended): on any well-formed state, `RemoveExpired` deletes
exactly those entries whose `expiresAt` is strictly before the current
time, returns the number of entries it deleted, and afterwards `Size`
equals the previous size minus the returned count. -/
theorem C8_remove_expired {s : CStorage} {now : Int} (hwf : WF s) :
    (RemoveExpired s now).2 =
      ((s.table.filter (fun p => decide (p.2.ttl < now))).length : Int) ∧
    Size (RemoveExpired s now).1 = Size s - (RemoveExpired s now).2 ∧
    (∀ k n, tableGet s.table k = some n →
      tableGet (RemoveExpired s now).1.table k =
        if n.ttl < now then none else some n) := by
  have hnd : (s.table.map Prod.fst).Nodup := hwf.keys_nodup
  have hpres : ∀ p ∈ s.table, tableGet s.table p.1 = some p.2 := by
    intro p hp
    exact tableGet_self_of_nodup hwf.keys_nodup hp
  rcases removeExpiredGo_spec s.table s hwf hnd hpres with ⟨i1, i2, i3, i4, i5⟩
  simp only [RemoveExpired, Size]
  refine ⟨i1, i2, ?_⟩
  intro k n hk
  have hmem : (k, n) ∈ s.table := tableGet_some_mem hk
  by_cases hexp : n.ttl < now
  · rw [if_pos hexp]
    exact i4 (k, n) hmem hexp
  · rw [if_neg hexp]
    have hfree : ∀ p ∈ s.table, p.2.ttl < now → p.1 ≠ k := by
      intro p hp hpexp hh
      have hp2 : tableGet s.table p.1 = some p.2 := hpres p hp
      rw [hh, hk] at hp2
      have h3 : n = p.2 := by injection hp2
      rw [← h3] at hpexp
      exact hexp hpexp
    rw [i5 k hfree]
    exact hk

/-- The state used to witness C8: "a" expired at 3, "b" expiring exactly
at the query time 9 (kept), "c" live until 20. -/
def c8WitState : CStorage :=
  { table := [("a", ⟨[1], 3⟩), ("b", ⟨[2], 9⟩), ("c", ⟨[3], 20⟩)],
    order := ["c", "b", "a"], size := 3, config := { Ttl := 5, Capacity := 3 } }

/-- Witness for C8 at time 9: exactly one entry is strictly expired, the
returned count is 1 and `Size` drops from 3 to 2. -/
theorem C8_remove_expired_witness :
    WF c8WitState ∧
    ((RemoveExpired c8WitState 9).2 =
        ((c8WitState.table.filter (fun p => decide (p.2.ttl < 9))).length : Int) ∧
      Size (RemoveExpired c8WitState 9).1 =
        Size c8WitState - (RemoveExpired c8WitState 9).2 ∧
      (∀ k n, tableGet c8WitState.table k = some n →
        tableGet (RemoveExpired c8WitState 9).1.table k =
          if n.ttl < 9 then none else some n)) :=
  ⟨by decide, C8_remove_expired (show WF c8WitState by decide)⟩

theorem Put_fresh_under_cap {s : CStorage} {k : String} {d : List Nat} {now : Int}
    (hg : tableGet s.table k = none) (hk : k ∉ s.order)
    (hlt : s.size < s.config.Capacity) :
    Put s k d now = some (false,
      { table := (k, ⟨d, now + s.config.Ttl⟩) :: s.table,
        order := k :: s.order, size := s.size + 1, config := s.config }) := by
  have hev : evictLoop s = some s := by
    show evictFuel (s.order.length + 1) s = some s
    simp only [evictFuel, if_pos hlt]
  rw [Put_fresh_step hg hev, List.erase_of_not_mem hk]

theorem Put_evict_tail {s : CStorage} {k kt : String} {l : List String}
    {d : List Nat} {now : Int}
    (hg : tableGet s.table k = none) (horder : s.order = l ++ [kt])
    (hktl : kt ∉ l) (hk : k ∉ s.order) (hsz : s.size = s.config.Capacity) :
    Put s k d now = some (false,
      { table := (k, ⟨d, now + s.config.Ttl⟩) :: tableDelete s.table kt,
        order := k :: l, size := s.size, config := s.config }) := by
  have h1 : ¬ s.size < s.config.Capacity := by omega
  have hlast : s.order.getLast? = some kt := by
    rw [horder]
    exact List.getLast?_concat _
  have herase : s.order.erase kt = l := by
    rw [horder, List.erase_append_right _ hktl, List.erase_cons_head, List.append_nil]
  have h2 : s.size - 1 < s.config.Capacity := by omega
  have hev : evictLoop s =
      some { table := tableDelete s.table kt, order := l,
             size := s.size - 1, config := s.config } := by
    show evictFuel (s.order.length + 1) s = some _
    have hlen : s.order.length + 1 = l.length + 1 + 1 := by
      rw [horder]
      simp
    rw [hlen]
    simp only [evictFuel, if_neg h1, hlast, evictNode, herase, if_pos h2]
  have hkl : k ∉ l := by
    intro hm
    apply hk
    rw [horder]
    exact List.mem_append_left _ hm
  rw [Put_fresh_step hg hev]
  have herasek : l.erase k = l := List.erase_of_not_mem hkl
  have hsub : s.size - 1 + 1 = s.size := by omega
  simp only [herasek, hsub]

theorem putSeq_append (l1 l2 : List (String × List Nat × Int)) :
    ∀ s, putSeq s (l1 ++ l2) =
      match putSeq s l1 with
      | none => none
      | some s1 => putSeq s1 l2 := by
  induction l1 with
  | nil =>
    intro s
    rfl
  | cons e rest ih =>
    intro s
    show putSeq s (e :: (rest ++ l2)) = _
    simp only [putSeq]
    rcases Put s e.1 e.2.1 e.2.2 with _ | r
    · rfl
    · exact ih r.2

theorem putSeq_fill :
    ∀ (es : List (String × List Nat × Int)) (s : CStorage),
      WF s → (es.map (fun e => e.1)).Nodup →
      (∀ e ∈ es, tableGet s.table e.1 = none) →
      s.size + (es.length : Int) ≤ s.config.Capacity →
      putSeq s es = some
        { table := (es.map (fun e =>
              (e.1, (⟨e.2.1, e.2.2 + s.config.Ttl⟩ : Node)))).reverse ++ s.table,
          order := (es.map (fun e => e.1)).reverse ++ s.order,
          size := s.size + es.length, config := s.config } := by
  intro es
  induction es with
  | nil =>
    intro s _ _ _ _
    show some s = _
    simp
  | cons e rest ih =>
    intro s hwf hnd hfresh hcap
    have hg : tableGet s.table e.1 = none := hfresh e (List.mem_cons_self _ _)
    have hk : e.1 ∉ s.order := fun hm =>
      (tableGet_eq_none_iff.mp hg) (hwf.perm.mem_iff.mpr hm)
    have hcap2 : s.size + ((rest.length : Int) + 1) ≤ s.config.Capacity := by
      have hlenc : ((e :: rest).length : Int) = (rest.length : Int) + 1 := by
        push_cast [List.length_cons]
        ring
      rw [hlenc] at hcap
      exact hcap
    have hlt : s.size < s.config.Capacity := by omega
    have hput : Put s e.1 e.2.1 e.2.2 = some (false,
        { table := (e.1, ⟨e.2.1, e.2.2 + s.config.Ttl⟩) :: s.table,
          order := e.1 :: s.order, size := s.size + 1, config := s.config }) :=
      Put_fresh_under_cap hg hk hlt
    have hndr : (rest.map (fun e => e.1)).Nodup := (List.nodup_cons.mp hnd).2
    have hkr : e.1 ∉ rest.map (fun e => e.1) := (List.nodup_cons.mp hnd).1
    simp only [putSeq, hput]
    rw [ih { table := (e.1, ⟨e.2.1, e.2.2 + s.config.Ttl⟩) :: s.table,
             order := e.1 :: s.order, size := s.size + 1, config := s.config }
        (Put_wf hwf hput).1 hndr ?_ ?_]
    · simp only [Option.some.injEq, CStorage.mk.injEq, List.map_cons,
        List.reverse_cons, List.append_assoc, List.singleton_append,
        List.length_cons]
      refine ⟨trivial, trivial, ?_, trivial⟩
      push_cast
      ring
    · intro e2 he2
      have hne : ¬ e.1 = e2.1 := by
        intro hh
        exact hkr (hh ▸ List.mem_map_of_mem (fun e => e.1) he2)
      simp only [tableGet, if_neg hne]
      exact hfresh e2 (List.mem_cons_of_mem _ he2)
    · show s.size + 1 + (rest.length : Int) ≤ s.config.Capacity
      omega

theorem putSeq_append_some {l1 l2 : List (String × List Nat × Int)}
    {s s1 : CStorage} (h : putSeq s l1 = some s1) :
    putSeq s (l1 ++ l2) = putSeq s1 l2 := by
  rw [putSeq_append l1 l2 s, h]

/-! ## Claim C3 -/

/-- C3: LRU capacity eviction.  First part: for capacity N ≥ 1, putting
N+1 distinct keys (arbitrary data and write times, so also regardless of
any expiry) into a fresh engine leaves exactly the first-inserted key
absent and all other N keys present.  Second part: on any well-formed
state holding a fresh key `k` with `count ≥ capacity`, `Put` evicts the
tail entry `kt` of the recency order — no expiry test occurs, the times
are arbitrary. -/
theorem C3_lru_capacity_eviction :
    (∀ (cfg : CStorageConfig) (e0 : String × List Nat × Int)
        (rest : List (String × List Nat × Int)),
      1 ≤ cfg.Capacity → (((e0 :: rest).length : Int) = cfg.Capacity + 1) →
      ((e0 :: rest).map (fun e => e.1)).Nodup →
      ∃ s, putSeq (New cfg) (e0 :: rest) = some s ∧
        tableGet s.table e0.1 = none ∧
        ∀ e ∈ rest, (tableGet s.table e.1).isSome = true) ∧
    (∀ (s : CStorage) (k : String) (d : List Nat) (t : Int)
        (l : List String) (kt : String),
      WF s → tableGet s.table k = none → s.config.Capacity ≤ s.size →
      s.order = l ++ [kt] →
      ∃ s', Put s k d t = some (false, s') ∧ tableGet s'.table kt = none) := by
  constructor
  · intro cfg e0 rest hcap hlen hnd
    have hrlen : (rest.length : Int) = cfg.Capacity := by
      push_cast [List.length_cons] at hlen
      omega
    have hrne : rest ≠ [] := by
      intro hh
      rw [hh] at hrlen
      simp at hrlen
      omega
    obtain ⟨front, elast, hfr⟩ : ∃ front elast, rest = front ++ [elast] :=
      ⟨rest.dropLast, rest.getLast hrne, (List.dropLast_append_getLast hrne).symm⟩
    subst hfr
    have hmap : ((e0 :: (front ++ [elast])).map (fun e => e.1)) =
        ((e0 :: front).map (fun e => e.1)) ++ [elast.1] := by
      simp
    rw [hmap] at hnd
    have hndL : ((e0 :: front).map (fun e => e.1)).Nodup :=
      (List.nodup_append.mp hnd).1
    have hdisj := (List.nodup_append.mp hnd).2.2
    have helast_notin : elast.1 ∉ (e0 :: front).map (fun e => e.1) := by
      intro hm
      exact hdisj hm (List.mem_singleton.mpr rfl)
    have he0_notin : e0.1 ∉ front.map (fun e => e.1) := by
      have h2 : (e0.1 :: front.map (fun e => e.1)).Nodup := by
        simpa using hndL
      exact (List.nodup_cons.mp h2).1
    have hfrlen : ((front.length : Int) + 1) = cfg.Capacity := by
      push_cast [List.length_append, List.length_singleton] at hrlen
      omega
    have hfill := putSeq_fill (e0 :: front) (New cfg)
      (WF_New (by omega)) hndL (fun e _ => rfl)
      (by
        show (0 : Int) + ((e0 :: front).length : Int) ≤ cfg.Capacity
        push_cast [List.length_cons]
        omega)
    have hfill2 : putSeq (New cfg) (e0 :: front) = some
        { table := (front.map (fun e =>
              (e.1, (⟨e.2.1, e.2.2 + cfg.Ttl⟩ : Node)))).reverse ++
            [(e0.1, (⟨e0.2.1, e0.2.2 + cfg.Ttl⟩ : Node))],
          order := (front.map (fun e => e.1)).reverse ++ [e0.1],
          size := (front.length : Int) + 1, config := cfg } := by
      rw [hfill]
      simp only [Option.some.injEq, CStorage.mk.injEq]
      refine ⟨?_, ?_, ?_, ?_⟩
      · simp [New]
      · simp [New]
      · simp only [New]
        push_cast [List.length_cons]
        ring
      · rfl
    have hkeysSF : keys ((front.map (fun e =>
          (e.1, (⟨e.2.1, e.2.2 + cfg.Ttl⟩ : Node)))).reverse ++
            [(e0.1, (⟨e0.2.1, e0.2.2 + cfg.Ttl⟩ : Node))]) =
        (front.map (fun e => e.1)).reverse ++ [e0.1] := by
      simp [keys, List.map_reverse, List.map_map, Function.comp_def]
    have hgSF : tableGet ((front.map (fun e =>
          (e.1, (⟨e.2.1, e.2.2 + cfg.Ttl⟩ : Node)))).reverse ++
            [(e0.1, (⟨e0.2.1, e0.2.2 + cfg.Ttl⟩ : Node))]) elast.1 = none := by
      rw [tableGet_eq_none_iff, hkeysSF]
      intro hm
      rcases List.mem_append.mp hm with hm1 | hm2
      · exact helast_notin (List.mem_cons_of_mem _ (List.mem_reverse.mp hm1))
      · exact helast_notin (by
          rw [List.mem_singleton.mp hm2]
          exact List.mem_cons_self _ _)
    have hktlSF : e0.1 ∉ (front.map (fun e => e.1)).reverse := by
      rw [List.mem_reverse]
      exact he0_notin
    have hkSF : elast.1 ∉ (front.map (fun e => e.1)).reverse ++ [e0.1] := by
      intro hm
      rcases List.mem_append.mp hm with hm1 | hm2
      · exact helast_notin (List.mem_cons_of_mem _ (List.mem_reverse.mp hm1))
      · exact helast_notin (by
          rw [List.mem_singleton.mp hm2]
          exact List.mem_cons_self _ _)
    have hne1 : ¬ elast.1 = e0.1 := by
      intro hh
      exact helast_notin (by
        rw [hh]
        exact List.mem_cons_self _ _)
    refine
      ⟨{ table := (elast.1, ⟨elast.2.1, elast.2.2 + cfg.Ttl⟩) ::
           tableDelete ((front.map (fun e =>
               (e.1, (⟨e.2.1, e.2.2 + cfg.Ttl⟩ : Node)))).reverse ++
             [(e0.1, (⟨e0.2.1, e0.2.2 + cfg.Ttl⟩ : Node))]) e0.1,
         order := elast.1 :: (front.map (fun e => e.1)).reverse,
         size := (front.length : Int) + 1, config := cfg }, ?_, ?_, ?_⟩
    · rw [← List.cons_append, putSeq_append_some hfill2]
      simp only [putSeq]
      rw [Put_evict_tail hgSF rfl hktlSF hkSF
        (by
          show (front.length : Int) + 1 = cfg.Capacity
          exact hfrlen)]
    · simp only [tableGet, if_neg hne1]
      exact tableGet_tableDelete_self
    · intro e he
      rcases List.mem_append.mp he with hef | hel
      · have hekey : e.1 ∈ front.map (fun e => e.1) :=
          List.mem_map_of_mem (fun e => e.1) hef
        have hneel : ¬ elast.1 = e.1 := by
          intro hh
          exact helast_notin (by
            rw [hh]
            exact List.mem_cons_of_mem _ hekey)
        have hnee0 : e.1 ≠ e0.1 := by
          intro hh
          exact he0_notin (hh ▸ hekey)
        simp only [tableGet, if_neg hneel]
        rw [tableGet_tableDelete_ne hnee0, tableGet_isSome_iff, hkeysSF]
        exact List.mem_append_left _ (List.mem_reverse.mpr hekey)
      · rw [List.mem_singleton.mp hel]
        simp [tableGet]
  · intro s k d t l kt hwf hg hcap horder
    have hsz : s.size = s.config.Capacity := le_antisymm hwf.size_le hcap
    have hnd2 : (l ++ [kt]).Nodup := horder ▸ hwf.nodup
    have hktl : kt ∉ l := by
      intro hm
      exact (List.nodup_append.mp hnd2).2.2 hm (List.mem_singleton.mpr rfl)
    have hk : k ∉ s.order := fun hm =>
      (tableGet_eq_none_iff.mp hg) (hwf.perm.mem_iff.mpr hm)
    have hktk : ¬ k = kt := by
      intro hh
      apply hk
      rw [horder, hh]
      exact List.mem_append_right _ (List.mem_singleton.mpr rfl)
    refine ⟨_, Put_evict_tail hg horder hktl hk hsz, ?_⟩
    simp only [tableGet, if_neg hktk]
    exact tableGet_tableDelete_self

/-- The state used to witness the second part of C3: an engine at
capacity 2 whose tail "y" is live far into the future. -/
def c3TailState : CStorage :=
  { table := [("x", ⟨[1], 500⟩), ("y", ⟨[2], 1000⟩)], order := ["x", "y"],
    size := 2, config := { Ttl := 5, Capacity := 2 } }

/-- Witness for C3: capacity 2, keys "a","b","c" inserted in order evict
exactly "a"; and on the full concrete state the non-expired tail "y" is
evicted by a new-key `Put`. -/
theorem C3_lru_capacity_eviction_witness :
    ((1 : Int) ≤ ({ Ttl := 7, Capacity := 2 } : CStorageConfig).Capacity ∧
      ((([(("a" : String), (([1] : List Nat), (0 : Int))),
          ("b", ([2], 0)), ("c", ([3], 1))]).length : Int) =
        ({ Ttl := 7, Capacity := 2 } : CStorageConfig).Capacity + 1) ∧
      ([(("a" : String), (([1] : List Nat), (0 : Int))),
          ("b", ([2], 0)), ("c", ([3], 1))].map (fun e => e.1)).Nodup) ∧
    (∃ s, putSeq (New { Ttl := 7, Capacity := 2 })
        [(("a" : String), (([1] : List Nat), (0 : Int))),
          ("b", ([2], 0)), ("c", ([3], 1))] = some s ∧
      tableGet s.table "a" = none ∧
      ∀ e ∈ [(("b" : String), (([2] : List Nat), (0 : Int))), ("c", ([3], 1))],
        (tableGet s.table e.1).isSome = true) ∧
    (WF c3TailState ∧
      ∃ s', Put c3TailState "z" [9] 100 = some (false, s') ∧
        tableGet s'.table "y" = none) :=
  ⟨⟨by decide, by decide, by decide⟩,
    C3_lru_capacity_eviction.1 { Ttl := 7, Capacity := 2 }
      ("a", ([1], (0 : Int))) [("b", ([2], 0)), ("c", ([3], 1))]
      (by decide) (by decide) (by decide),
    ⟨by decide,
      C3_lru_capacity_eviction.2 c3TailState "z" [9] 100 ["x"] "y"
        (by decide) (by decide) (by decide) (by decide)⟩⟩
